import Mathlib

/-!
Verification of the `crypt` package (UlisseMini/crypt).

Shallow embedding of `crypt.go` into Lean 4.  Bytes are modelled as `Nat`,
byte slices as `List Nat`.  Go's fallible calls return `Except CryptError`;
a Go runtime panic is modelled as the `none` case of an outer `Option`.

The AEAD primitive (`crypto/cipher` AES-GCM) is an external collaborator that
the specification declares out of scope and assumes to be a black box
satisfying the AEAD contract of its section 3 (seal/open inverse, 12-byte
nonce, 16-byte tag, alteration detected).  It is therefore modelled from the
spec, not reimplemented bit-for-bit; every function of `crypt.go` itself is
translated directly from the source.
-/

/-- Error taxonomy.  The constructors follow the specification's section 7;
the Go source returns `errors.New` strings or propagates library errors, and
each site is mapped to the matching constructor (noted at each definition). -/
inductive CryptError where
  | InvalidKey
  | MalformedInput
  | AuthenticationFailure
  | TruncatedFrame
  | BufferTooSmall
  | SourceReadError
  | SinkWriteError
  deriving DecidableEq

/-- AES-GCM nonce size in bytes: `gcm.NonceSize()` is 12 for the standard GCM
built by `cipher.NewGCM`. -/
def nonceSize : Nat := 12

/-- AES-GCM tag size in bytes: `gcm.Overhead()` is 16. -/
def tagSize : Nat := 16

/-- Modelled from the spec: keystream byte `i` of the black-box AEAD cipher
for a given key and nonce.  Any fixed function of (key, nonce, i) is a
faithful model of the contract; the concrete formula is arbitrary. -/
def keystream (key nonce : List Nat) (i : Nat) : Nat :=
  (key.sum + nonce.sum * 3 + i * 7 + 11) % 256

/-- Modelled from the spec: XOR a list of bytes with the keystream starting
at position `i`.  Applying it twice restores the input (XOR is involutive),
which models the seal/open inverse property of the AEAD contract. -/
def xorKS (key nonce : List Nat) : Nat → List Nat → List Nat
  | _, [] => []
  | i, x :: xs => (x ^^^ keystream key nonce i) :: xorKS key nonce (i + 1) xs

/-- XOR-fold of a list of bytes, used by the modelled authentication tag. -/
def foldXor (l : List Nat) : Nat :=
  l.foldr (fun a b => a ^^^ b) 0

/-- Modelled from the spec: the 16-byte authentication tag over a nonce and a
ciphertext.  Its first byte is the XOR-fold of `nonce ++ ct`, so any change
of a single bit anywhere in the nonce or ciphertext changes the tag, and the
remaining 15 bytes are fixed; this realises the contract's promise that the
tag detects alteration of the sealed data. -/
def tagOf (nonce ct : List Nat) : List Nat :=
  foldXor (nonce ++ ct) :: List.replicate 15 0

/-- Modelled from the spec: `gcm.Seal(nil, nonce, pt, nil)` of the black-box
AEAD: ciphertext (same length as the plaintext) followed by the 16-byte tag. -/
def sealAEAD (key nonce pt : List Nat) : List Nat :=
  xorKS key nonce 0 pt ++ tagOf nonce (xorKS key nonce 0 pt)

/-- Modelled from the spec: `gcm.Open(nil, nonce, data, nil)` of the black-box
AEAD.  Data shorter than the tag, or a tag that does not verify, yields the
authentication failure that Go GCM reports as `cipher: message authentication
failed`; otherwise the ciphertext part is decrypted. -/
def openAEAD (key nonce data : List Nat) : Except CryptError (List Nat) :=
  if data.length < tagSize then .error .AuthenticationFailure
  else
    let ct := data.take (data.length - tagSize)
    let tg := data.drop (data.length - tagSize)
    if tg = tagOf nonce ct then .ok (xorKS key nonce 0 ct)
    else .error .AuthenticationFailure

/-- From the source (`newGCM`): `aes.NewCipher(key[:])` fails with a
`KeySizeError` unless the key is 16, 24 or 32 bytes, and `cipher.NewGCM`
then succeeds; the key bytes themselves become the AEAD instance.  The
failure is the spec's `InvalidKey`.  `crypt.go` always passes a `*[32]byte`,
but the factory is modelled over raw byte lists exactly as `aes.NewCipher`
behaves, which is what the spec's section 4.1 and its design notes discuss. -/
def newGCM (key : List Nat) : Except CryptError Unit :=
  if key.length = 16 ∨ key.length = 24 ∨ key.length = 32 then .ok ()
  else .error .InvalidKey

/-- From the source (`Encrypt`): build the AEAD, draw one nonce (modelled as
the `nonce` argument, standing for the 12 random bytes that `newNonce`
returns), and produce `gcm.Seal(nonce, nonce, plaintext, nil)`, i.e. the
nonce with the sealed data appended. -/
def Encrypt (plaintext key nonce : List Nat) : Except CryptError (List Nat) :=
  match newGCM key with
  | .error e => .error e
  | .ok _ => .ok (nonce ++ sealAEAD key nonce plaintext)

/-- From the source (`Decrypt`): `gcm, err := newGCM(key)` binds `err` but the
code never checks it; the very next line calls `gcm.NonceSize()`.  When
`newGCM` fails it returns a nil AEAD, so that call panics — modelled as
`none`.  Otherwise the length bound is checked (the Go error string
`ciphertext can't be smaller then gcm.NonceSize` is the spec's
`MalformedInput`) and the leading nonce is split off for `gcm.Open`. -/
def Decrypt (ciphertext key : List Nat) : Option (Except CryptError (List Nat)) :=
  match newGCM key with
  | .error _ => none
  | .ok _ =>
    some (if ciphertext.length < nonceSize then .error .MalformedInput
          else openAEAD key (ciphertext.take nonceSize) (ciphertext.drop nonceSize))

/-- Length of `xorKS` equals the input length. -/
theorem xorKS_length (key nonce : List Nat) :
    ∀ i l, (xorKS key nonce i l).length = l.length := by
  intro i l
  induction l generalizing i with
  | nil => rfl
  | cons x xs ih => simp [xorKS, ih]

/-- XOR-ing with the keystream twice restores the input. -/
theorem xorKS_xorKS (key nonce : List Nat) :
    ∀ i l, xorKS key nonce i (xorKS key nonce i l) = l := by
  intro i l
  induction l generalizing i with
  | nil => rfl
  | cons x xs ih =>
    simp [xorKS, ih, Nat.xor_assoc, Nat.xor_self, Nat.xor_zero]

/-- The modelled tag is 16 bytes long. -/
theorem tagOf_length (nonce ct : List Nat) : (tagOf nonce ct).length = tagSize := rfl

/-- Evaluation of `openAEAD` on data presented as ciphertext plus a 16-byte
trailer: the trailer is compared against the recomputed tag. -/
theorem openAEAD_eval (key nonce ct tg : List Nat) (h16 : tg.length = tagSize) :
    openAEAD key nonce (ct ++ tg) =
      if tg = tagOf nonce ct then .ok (xorKS key nonce 0 ct)
      else .error .AuthenticationFailure := by
  have hlen : (ct ++ tg).length = ct.length + tagSize := by
    rw [List.length_append, h16]
  have hnotlt : ¬ (ct ++ tg).length < tagSize := by
    rw [hlen]; omega
  have hsub : (ct ++ tg).length - tagSize = ct.length := by rw [hlen]; omega
  have htake : (ct ++ tg).take ((ct ++ tg).length - tagSize) = ct := by
    rw [hsub]; exact List.take_left' rfl
  have hdrop : (ct ++ tg).drop ((ct ++ tg).length - tagSize) = tg := by
    rw [hsub]; exact List.drop_left' rfl
  simp only [openAEAD, if_neg hnotlt, htake, hdrop]

/-- Sanity: sealing then opening restores the plaintext. -/
theorem openAEAD_sealAEAD (key nonce pt : List Nat) :
    openAEAD key nonce (sealAEAD key nonce pt) = .ok pt := by
  unfold sealAEAD
  rw [openAEAD_eval key nonce _ _ (tagOf_length _ _), if_pos rfl, xorKS_xorKS]

/-- Reduction of `Decrypt` under a valid 32-byte key and a long-enough
ciphertext. -/
theorem Decrypt_eval (ciphertext key : List Nat) (hk : key.length = 32)
    (hlen : nonceSize ≤ ciphertext.length) :
    Decrypt ciphertext key =
      some (openAEAD key (ciphertext.take nonceSize) (ciphertext.drop nonceSize)) := by
  have hgcm : newGCM key = .ok () := by simp [newGCM, hk]
  simp [Decrypt, hgcm, Nat.not_lt.mpr hlen]

/-- One loop iteration of `Writer.Write` acts on this state: the buffer
contents (`buf`, of fixed length `bufSize`), the input slice `p` (the Go loop
variable, which the source never reassigns), the running `total`, the count
`k` of nonces drawn so far (each flush calls `newNonce` once; `k` indexes the
nonce supply), and the payloads written to the underlying sink so far. -/
structure WIter where
  buf : List Nat
  p : List Nat
  total : Nat
  k : Nat
  sink : List (List Nat)
  deriving DecidableEq

/-- From the source (`Writer.Write`, loop body): `n := copy(w.buf[:], p)`
copies `min` of the two lengths into the front of the buffer and adds `n` to
`total`.  If the buffer was filled (`n == len(w.buf)`), the flush branch runs:
one nonce is drawn, `ciphertext := w.gcm.Seal(nonce, nonce, p, nil)` seals the
WHOLE remaining input `p` (not the chunk) — and is then discarded, because
`w.w.Write(w.buf)` sends the raw buffer, i.e. plaintext, to the sink.  The
sink is modelled as always accepting in full (`nw = len(w.buf)`), so the
`err != nil` early return cannot fire, and the `nw != len(ciphertext)`
comparison only assigns an error that the source then drops (the loop
continues and the final `return total, nil` ignores it).  Crucially, `p` is
never advanced in either branch. -/
def writeStep (key : List Nat) (nsup : Nat → List Nat) (s : WIter) : WIter :=
  let n := min s.buf.length s.p.length
  let buf2 := s.p.take n ++ s.buf.drop n
  if n = s.buf.length then
    let nonce := nsup s.k
    let _ciphertext := nonce ++ sealAEAD key nonce s.p
    { buf := buf2, p := s.p, total := s.total + n + buf2.length,
      k := s.k + 1, sink := s.sink ++ [buf2] }
  else
    { buf := buf2, p := s.p, total := s.total + n, k := s.k, sink := s.sink }

/-- From the source (`Writer.Write`): the `for len(p) != 0` loop, embedded
with fuel.  `none` means the fuel ran out with the guard still true; if every
amount of fuel yields `none`, the Go loop never terminates. -/
def writeLoop (key : List Nat) (nsup : Nat → List Nat) : Nat → WIter → Option WIter
  | 0, s => if s.p = [] then some s else none
  | fuel + 1, s =>
    if s.p = [] then some s
    else writeLoop key nsup fuel (writeStep key nsup s)

/-- Iterate the loop body a fixed number of times, to observe intermediate
states (in particular the sink) of the non-terminating loop. -/
def stepIter (key : List Nat) (nsup : Nat → List Nat) : Nat → WIter → WIter
  | 0, s => s
  | k + 1, s => stepIter key nsup k (writeStep key nsup s)

/-- Result of one call to the underlying `io.Reader`'s `Read`: either some
bytes (at most the requested count; fewer models a partial read, zero with
no error models a degenerate read) or an error such as `io.EOF`. -/
inductive ReadResult where
  | bytes (bs : List Nat)
  | fail (e : CryptError)

/-- From the source (`Reader.Read`): rejects a destination shorter than the
nonce size (the Go error string `buffer can't be smaller then gcm.NonceSize`,
here `BufferTooSmall`); allocates `buf` of `len(p) + gcm.Overhead()` zero
bytes; issues ONE read to the underlying source with that buffer; on a source
error returns it; otherwise `ciphertext := buf[:n]`.  `ciphertext[:NonceSize]`
reslices within the backing array (capacity `len(p)+16`), so when `n` is
short it silently picks up the zero padding, while `ciphertext[NonceSize:]`
requires `NonceSize <= n` and PANICS otherwise (slice out of range) —
modelled as `none`.  The decrypted bytes are copied into the destination
(`b.take plen`).  `rbuf` is the Reader's `buf` field allocated by
`NewReader`; the source never touches it here. -/
def ReadGo (key rbuf : List Nat) (src : Nat → ReadResult) (plen : Nat) :
    Option (Except CryptError (List Nat)) :=
  if plen < nonceSize then some (.error .BufferTooSmall)
  else
    match src (plen + tagSize) with
    | .fail e => some (.error e)
    | .bytes bs =>
      let n := min bs.length (plen + tagSize)
      if n < nonceSize then none
      else
        let buf := bs.take n ++ List.replicate (plen + tagSize - n) 0
        match openAEAD key (buf.take nonceSize) ((bs.take n).drop nonceSize) with
        | .error e => some (.error e)
        | .ok b => some (.ok (b.take plen))

/-- Concrete 32-byte key used by the closed test theorems. -/
def key0 : List Nat := List.replicate 32 0

/-- Concrete 12-byte nonce used by the closed test theorems. -/
def nonce0 : List Nat := List.replicate 12 0

/-- Concrete nonce supply for the Writer theorems. -/
def nsup0 : Nat → List Nat := fun _ => List.replicate 12 0

/-- Fresh 16-byte chunk buffer as `NewWriter` allocates it (`make` zeroes). -/
def buf16 : List Nat := List.replicate 16 0

/-- The loop body never changes the input slice `p`: the source never
advances it. -/
theorem writeStep_p (key : List Nat) (nsup : Nat → List Nat) (s : WIter) :
    (writeStep key nsup s).p = s.p := by
  simp only [writeStep]
  split <;> rfl

/-- With a non-empty input and a sink that accepts every write, the
`Writer.Write` loop runs out of any amount of fuel: the Go loop diverges. -/
theorem writeLoop_none (key : List Nat) (nsup : Nat → List Nat) :
    ∀ fuel s, s.p ≠ [] → writeLoop key nsup fuel s = none := by
  intro fuel
  induction fuel with
  | zero => intro s h; simp [writeLoop, h]
  | succ n ih =>
    intro s h
    have h2 : (writeStep key nsup s).p ≠ [] := by rw [writeStep_p]; exact h
    simp [writeLoop, h, ih _ h2]

/-- While the input is strictly shorter than the buffer, the loop body copies
but never flushes: the sink, the input and the buffer length are unchanged
after any number of iterations. -/
theorem stepIter_inv (key : List Nat) (nsup : Nat → List Nat) :
    ∀ k s, s.p.length < s.buf.length →
      (stepIter key nsup k s).sink = s.sink ∧
      (stepIter key nsup k s).p = s.p ∧
      (stepIter key nsup k s).buf.length = s.buf.length := by
  intro k
  induction k with
  | zero => intro s _; exact ⟨rfl, rfl, rfl⟩
  | succ k ih =>
    intro s h
    have hmin : min s.buf.length s.p.length = s.p.length :=
      Nat.min_eq_right (Nat.le_of_lt h)
    have hne : ¬ min s.buf.length s.p.length = s.buf.length := by omega
    have hstep : writeStep key nsup s =
        { buf := s.p.take (min s.buf.length s.p.length) ++
                   s.buf.drop (min s.buf.length s.p.length),
          p := s.p, total := s.total + min s.buf.length s.p.length,
          k := s.k, sink := s.sink } := by
      unfold writeStep
      rw [if_neg hne]
    have hlen : (writeStep key nsup s).buf.length = s.buf.length := by
      rw [hstep]
      simp only [List.length_append, List.length_take, List.length_drop, hmin]
      omega
    have hlt : (writeStep key nsup s).p.length < (writeStep key nsup s).buf.length := by
      rw [hlen, writeStep_p]; exact h
    obtain ⟨h1, h2, h3⟩ := ih (writeStep key nsup s) hlt
    refine ⟨?_, ?_, ?_⟩
    · rw [stepIter, h1, hstep]
    · rw [stepIter, h2, writeStep_p]
    · rw [stepIter, h3, hlen]

/-- Flip bit `b` of the byte at position `i` of a byte list. -/
def flipBit (i b : Nat) (l : List Nat) : List Nat :=
  l.set i ((l.getD i 0) ^^^ 2 ^ b)

/-- XOR-ing a value with a power of two always changes it. -/
theorem xor_two_pow_ne (a b : Nat) : a ^^^ 2 ^ b ≠ a := by
  intro h
  have h2 := congrArg (fun x => a ^^^ x) h
  simp only [← Nat.xor_assoc, Nat.xor_self, Nat.zero_xor] at h2
  exact absurd h2 (Nat.pos_iff_ne_zero.mp (Nat.two_pow_pos b))

/-- Flipping a bit preserves the length. -/
theorem flipBit_length (i b : Nat) (l : List Nat) :
    (flipBit i b l).length = l.length := by
  unfold flipBit
  exact List.length_set l i _

/-- Reading back the position that `List.set` wrote. -/
theorem getD_set_self : ∀ (l : List Nat) (j v : Nat), j < l.length →
    (l.set j v).getD j 0 = v := by
  intro l
  induction l with
  | nil => intro j v h; simp at h
  | cons a t ih =>
    intro j v h
    cases j with
    | zero => rfl
    | succ j =>
      show (a :: t.set j v).getD (j + 1) 0 = v
      rw [List.getD_cons_succ]
      exact ih j v (by simpa using h)

/-- Flipping a bit inside the list changes the list. -/
theorem flipBit_ne (l : List Nat) (j b : Nat) (h : j < l.length) :
    flipBit j b l ≠ l := by
  intro he
  have h2 := congrArg (fun t => t.getD j 0) he
  simp only [flipBit] at h2
  rw [getD_set_self l j _ h] at h2
  exact xor_two_pow_ne _ _ h2

/-- Unfolding the XOR fold over a cons cell. -/
theorem foldXor_cons (x : Nat) (xs : List Nat) :
    foldXor (x :: xs) = x ^^^ foldXor xs := rfl

/-- XOR-ing the byte at one position into the fold shifts the fold by the
same mask. -/
theorem foldXor_set : ∀ (l : List Nat) (i m : Nat), i < l.length →
    foldXor (l.set i ((l.getD i 0) ^^^ m)) = foldXor l ^^^ m := by
  intro l
  induction l with
  | nil => intro i m h; simp at h
  | cons a t ih =>
    intro i m h
    cases i with
    | zero =>
      show foldXor ((a ^^^ m) :: t) = foldXor (a :: t) ^^^ m
      rw [foldXor_cons, foldXor_cons, Nat.xor_assoc, Nat.xor_assoc,
        Nat.xor_comm m]
    | succ i =>
      rw [List.getD_cons_succ]
      show foldXor (a :: t.set i (t.getD i 0 ^^^ m)) = foldXor (a :: t) ^^^ m
      rw [foldXor_cons, foldXor_cons, ih i m (by simpa using h), Nat.xor_assoc]

/-- Flipping a bit in the left part of an append. -/
theorem flipBit_append_left (l₁ l₂ : List Nat) (i b : Nat) (h : i < l₁.length) :
    flipBit i b (l₁ ++ l₂) = flipBit i b l₁ ++ l₂ := by
  unfold flipBit
  rw [List.getD_append l₁ l₂ 0 i h, List.set_append, if_pos h]

/-- Flipping a bit in the right part of an append. -/
theorem flipBit_append_right (l₁ l₂ : List Nat) (i b : Nat) (h : l₁.length ≤ i) :
    flipBit i b (l₁ ++ l₂) = l₁ ++ flipBit (i - l₁.length) b l₂ := by
  unfold flipBit
  rw [List.getD_append_right l₁ l₂ 0 i h, List.set_append,
    if_neg (Nat.not_lt.mpr h)]

/-- Opening a whole buffer `nonce ++ ct ++ tag` after flipping any single bit
anywhere in it fails to authenticate: a flip in the nonce or ciphertext part
shifts the recomputed tag head by the flipped bit, and a flip in the tag part
makes the stored tag differ from the recomputed one. -/
theorem openAEAD_flip (key nonce ct : List Nat) (i b : Nat)
    (hn : nonce.length = nonceSize)
    (hi : i < nonce.length + ct.length + tagSize) :
    openAEAD key ((flipBit i b ((nonce ++ ct) ++ tagOf nonce ct)).take nonceSize)
      ((flipBit i b ((nonce ++ ct) ++ tagOf nonce ct)).drop nonceSize)
    = .error .AuthenticationFailure := by
  have hplen : (nonce ++ ct).length = nonce.length + ct.length :=
    List.length_append nonce ct
  by_cases hcase : i < (nonce ++ ct).length
  · have h1 : flipBit i b ((nonce ++ ct) ++ tagOf nonce ct)
        = flipBit i b (nonce ++ ct) ++ tagOf nonce ct :=
      flipBit_append_left _ _ _ _ hcase
    have hAlen : nonceSize ≤ (flipBit i b (nonce ++ ct)).length := by
      rw [flipBit_length, hplen, hn]
      omega
    have htlen : ((flipBit i b (nonce ++ ct)).take nonceSize).length = nonceSize := by
      rw [List.length_take]
      exact Nat.min_eq_left hAlen
    have hsplit : flipBit i b (nonce ++ ct) ++ tagOf nonce ct
        = (flipBit i b (nonce ++ ct)).take nonceSize ++
            ((flipBit i b (nonce ++ ct)).drop nonceSize ++ tagOf nonce ct) := by
      rw [← List.append_assoc, List.take_append_drop]
    have htake : (flipBit i b (nonce ++ ct) ++ tagOf nonce ct).take nonceSize
        = (flipBit i b (nonce ++ ct)).take nonceSize := by
      rw [hsplit]; exact List.take_left' htlen
    have hdrop : (flipBit i b (nonce ++ ct) ++ tagOf nonce ct).drop nonceSize
        = (flipBit i b (nonce ++ ct)).drop nonceSize ++ tagOf nonce ct := by
      rw [hsplit]; exact List.drop_left' htlen
    rw [h1, htake, hdrop, openAEAD_eval _ _ _ _ (tagOf_length _ _)]
    have hne : ¬ (tagOf nonce ct
        = tagOf ((flipBit i b (nonce ++ ct)).take nonceSize)
            ((flipBit i b (nonce ++ ct)).drop nonceSize)) := by
      intro heq
      simp only [tagOf, List.cons.injEq, and_true] at heq
      rw [List.take_append_drop] at heq
      have hfold : foldXor (flipBit i b (nonce ++ ct))
          = foldXor (nonce ++ ct) ^^^ 2 ^ b := by
        unfold flipBit
        exact foldXor_set _ _ _ hcase
      rw [hfold] at heq
      exact xor_two_pow_ne _ _ heq.symm
    rw [if_neg hne]
  · have hcase2 : (nonce ++ ct).length ≤ i := Nat.not_lt.mp hcase
    have h1 : flipBit i b ((nonce ++ ct) ++ tagOf nonce ct)
        = (nonce ++ ct) ++ flipBit (i - (nonce ++ ct).length) b (tagOf nonce ct) :=
      flipBit_append_right _ _ _ _ hcase2
    have hj : i - (nonce ++ ct).length < tagSize := by
      rw [hplen] at hcase2 ⊢
      omega
    rw [h1, List.append_assoc]
    rw [List.take_left' hn, List.drop_left' hn,
      openAEAD_eval _ _ _ _ (by rw [flipBit_length]; exact tagOf_length _ _)]
    have hne : ¬ (flipBit (i - (nonce ++ ct).length) b (tagOf nonce ct)
        = tagOf nonce ct) :=
      flipBit_ne _ _ _ (by rw [tagOf_length]; exact hj)
    rw [if_neg hne]

/-- Reduction of `Reader.Read` when the single source call delivers exactly
the requested `plen + tagSize` bytes. -/
theorem ReadGo_full (key rbuf bs : List Nat) (plen : Nat)
    (h1 : nonceSize ≤ plen) (h2 : bs.length = plen + tagSize) :
    ReadGo key rbuf (fun _ => .bytes bs) plen =
      match openAEAD key (bs.take nonceSize) (bs.drop nonceSize) with
      | .error e => some (.error e)
      | .ok b => some (.ok (b.take plen)) := by
  have hmin : min bs.length (plen + tagSize) = plen + tagSize := by
    rw [h2]; exact Nat.min_self _
  have hnot1 : ¬ plen < nonceSize := Nat.not_lt.mpr h1
  have hnot2 : ¬ plen + tagSize < nonceSize := by
    simp only [nonceSize, tagSize] at h1 ⊢
    omega
  have htk : bs.take (plen + tagSize) = bs := by
    rw [← h2]; exact List.take_length bs
  simp only [ReadGo, if_neg hnot1, hmin, if_neg hnot2, htk, Nat.sub_self,
    List.replicate, List.append_nil]

/-- Claim C1: whole-buffer round-trip.  For every plaintext and every valid
32-byte key (and any 12-byte value drawn by the nonce generator), `Decrypt`
applied to the output of `Encrypt` under the same key succeeds and returns
exactly the original plaintext. -/
theorem C1_whole_buffer_roundtrip (pt key nonce : List Nat)
    (hk : key.length = 32) (hn : nonce.length = nonceSize) :
    ∃ c, Encrypt pt key nonce = .ok c ∧ Decrypt c key = some (.ok pt) := by
  have hgcm : newGCM key = .ok () := by simp [newGCM, hk]
  refine ⟨nonce ++ sealAEAD key nonce pt, ?_, ?_⟩
  · simp [Encrypt, hgcm]
  · have hlen : nonceSize ≤ (nonce ++ sealAEAD key nonce pt).length := by
      rw [List.length_append, hn]
      omega
    rw [Decrypt_eval _ _ hk hlen, List.take_left' hn, List.drop_left' hn,
      openAEAD_sealAEAD]

/-- Witness for C1 at a concrete plaintext and key. -/
theorem C1_whole_buffer_roundtrip_witness :
    ∃ c, Encrypt [1, 2, 3] key0 nonce0 = .ok c ∧
      Decrypt c key0 = some (.ok [1, 2, 3]) :=
  C1_whole_buffer_roundtrip [1, 2, 3] key0 nonce0 (by decide) (by decide)

/-- Claim C7: output size and layout of `Encrypt`.  For every plaintext of
`N` bytes and valid key, the output is the 12-byte nonce, then a ciphertext
of exactly `N` bytes, then the 16-byte tag, for a total of `N + 28` bytes. -/
theorem C7_encrypt_length_layout (pt key nonce : List Nat)
    (hk : key.length = 32) (hn : nonce.length = nonceSize) :
    ∃ c t, Encrypt pt key nonce = .ok (nonce ++ (c ++ t)) ∧
      nonce.length = 12 ∧ c.length = pt.length ∧ t.length = 16 ∧
      (nonce ++ (c ++ t)).length = pt.length + nonceSize + tagSize ∧
      (nonce ++ (c ++ t)).length = pt.length + 28 := by
  have hgcm : newGCM key = .ok () := by simp [newGCM, hk]
  refine ⟨xorKS key nonce 0 pt, tagOf nonce (xorKS key nonce 0 pt),
    ?_, hn, xorKS_length key nonce 0 pt, tagOf_length _ _, ?_, ?_⟩
  · simp [Encrypt, hgcm, sealAEAD]
  · simp only [List.length_append, hn, xorKS_length, tagOf_length,
      nonceSize, tagSize]
    omega
  · simp only [List.length_append, hn, xorKS_length, tagOf_length,
      nonceSize, tagSize]
    omega

/-- Witness for C7 at a concrete plaintext and key. -/
theorem C7_encrypt_length_layout_witness :
    ∃ c t, Encrypt [9, 9] key0 nonce0 = .ok (nonce0 ++ (c ++ t)) ∧
      nonce0.length = 12 ∧ c.length = ([9, 9] : List Nat).length ∧
      t.length = 16 ∧
      (nonce0 ++ (c ++ t)).length = ([9, 9] : List Nat).length + nonceSize + tagSize ∧
      (nonce0 ++ (c ++ t)).length = ([9, 9] : List Nat).length + 28 :=
  C7_encrypt_length_layout [9, 9] key0 nonce0 (by decide) (by decide)

/-- Claim C8: tamper detection.  Flipping any single bit of a whole-buffer
ciphertext produced by `Encrypt` makes `Decrypt` fail with
`AuthenticationFailure`, and feeding the same flipped bytes to the stream
`Reader.Read` as one frame also fails with `AuthenticationFailure`; in both
cases only the error is returned, never any plaintext. -/
theorem C8_single_bit_flip_detected (pt key nonce : List Nat) (i b : Nat)
    (hk : key.length = 32) (hn : nonce.length = nonceSize)
    (hi : i < nonceSize + pt.length + tagSize) (hb : b < 8) :
    Encrypt pt key nonce = .ok (nonce ++ sealAEAD key nonce pt) ∧
    Decrypt (flipBit i b (nonce ++ sealAEAD key nonce pt)) key =
      some (.error .AuthenticationFailure) ∧
    ReadGo key [] (fun _ => .bytes (flipBit i b (nonce ++ sealAEAD key nonce pt)))
        (pt.length + nonceSize) =
      some (.error .AuthenticationFailure) := by
  have hgcm : newGCM key = .ok () := by simp [newGCM, hk]
  have hdecomp : nonce ++ sealAEAD key nonce pt
      = (nonce ++ xorKS key nonce 0 pt) ++ tagOf nonce (xorKS key nonce 0 pt) := by
    rw [sealAEAD, ← List.append_assoc]
  have hi2 : i < nonce.length + (xorKS key nonce 0 pt).length + tagSize := by
    rw [hn, xorKS_length]
    exact hi
  have hWlen : (flipBit i b (nonce ++ sealAEAD key nonce pt)).length
      = pt.length + nonceSize + tagSize := by
    rw [flipBit_length, List.length_append, hn, sealAEAD, List.length_append,
      xorKS_length, tagOf_length]
    simp only [nonceSize, tagSize]
    omega
  refine ⟨by simp [Encrypt, hgcm], ?_, ?_⟩
  · have hlen : nonceSize ≤ (flipBit i b (nonce ++ sealAEAD key nonce pt)).length := by
      rw [hWlen]
      simp only [nonceSize, tagSize]
      omega
    rw [Decrypt_eval _ _ hk hlen, hdecomp,
      openAEAD_flip key nonce (xorKS key nonce 0 pt) i b hn hi2]
  · have hbs : (flipBit i b (nonce ++ sealAEAD key nonce pt)).length
        = (pt.length + nonceSize) + tagSize := by
      rw [hWlen]
    rw [ReadGo_full key [] _ (pt.length + nonceSize)
        (Nat.le_add_left nonceSize pt.length) hbs, hdecomp,
      openAEAD_flip key nonce (xorKS key nonce 0 pt) i b hn hi2]

/-- Witness for C8 at a concrete plaintext, key and bit position. -/
theorem C8_single_bit_flip_detected_witness :
    Encrypt [5] key0 nonce0 = .ok (nonce0 ++ sealAEAD key0 nonce0 [5]) ∧
    Decrypt (flipBit 3 2 (nonce0 ++ sealAEAD key0 nonce0 [5])) key0 =
      some (.error .AuthenticationFailure) ∧
    ReadGo key0 [] (fun _ => .bytes (flipBit 3 2 (nonce0 ++ sealAEAD key0 nonce0 [5])))
        (([5] : List Nat).length + nonceSize) =
      some (.error .AuthenticationFailure) :=
  C8_single_bit_flip_detected [5] key0 nonce0 3 2 (by decide) (by decide)
    (by decide) (by decide)

/-- Claim C2 (refuted, code bug): stream round-trip with `chunkSize = 16`.
The empty input indeed yields zero frames (the `Write` loop is never
entered and the sink stays empty), but already for the 1-byte input `[7]`
the `Writer.Write` loop never terminates for any amount of fuel — the source
never consumes `p` — so no frame stream is ever produced to decode, and the
round-trip for the non-empty lengths the claim lists is impossible. -/
theorem C2_stream_roundtrip_broken :
    (∀ fuel bufc, writeLoop key0 nsup0 fuel ⟨bufc, [], 0, 0, []⟩
      = some ⟨bufc, [], 0, 0, []⟩) ∧
    (∀ fuel, writeLoop key0 nsup0 fuel ⟨buf16, [7], 0, 0, []⟩ = none) := by
  constructor
  · intro fuel bufc
    cases fuel <;> simp [writeLoop]
  · intro fuel
    exact writeLoop_none key0 nsup0 fuel _ (by decide)

/-- Claim C3 (refuted, code bug): `Writer.Write` does not terminate on any
non-empty input with a sink that accepts every write, because the loop never
advances `p`; here the 1-byte input `[42]` with the freshly allocated
16-byte chunk buffer exhausts every amount of fuel, so `Write` never returns
a `bytesAccepted` count at all. -/
theorem C3_write_never_terminates :
    ∀ fuel, writeLoop key0 nsup0 fuel ⟨buf16, [42], 0, 0, []⟩ = none := by
  intro fuel
  exact writeLoop_none key0 nsup0 fuel _ (by decide)

/-- Claim C4 (refuted, code bug): the Writer API of the source consists of
`Write` alone — no finish/flush operation exists — and with 5 buffered bytes
(less than the 16-byte chunk) the loop body never performs a sink write, at
any iteration count, while the call itself never terminates; the trailing
bytes can therefore never reach the sink. -/
theorem C4_trailing_chunk_never_flushed :
    (∀ k, (stepIter key0 nsup0 k ⟨buf16, [1, 2, 3, 4, 5], 0, 0, []⟩).sink = []) ∧
    (∀ fuel, writeLoop key0 nsup0 fuel ⟨buf16, [1, 2, 3, 4, 5], 0, 0, []⟩ = none) := by
  constructor
  · intro k
    exact (stepIter_inv key0 nsup0 k _ (by decide)).1
  · intro fuel
    exact writeLoop_none key0 nsup0 fuel _ (by decide)

/-- Claim C5 (refuted, code bug): when the 16-byte buffer fills, the flush
branch draws one nonce (`k` rises to 1) but the single sink write is the raw
16-byte plaintext chunk, not the `nonceSize + n + tagSize = 44`-byte sealed
frame; the sealed ciphertext the branch computes is discarded. -/
theorem C5_flush_writes_plaintext_not_frame :
    (writeStep key0 nsup0 ⟨buf16, List.range 16, 0, 0, []⟩).sink
      = [List.range 16] ∧
    (writeStep key0 nsup0 ⟨buf16, List.range 16, 0, 0, []⟩).k = 1 ∧
    (List.range 16).length = 16 ∧
    ¬ ((List.range 16).length = nonceSize + (List.range 16).length + tagSize) ∧
    (writeStep key0 nsup0 ⟨buf16, List.range 16, 0, 0, []⟩).sink
      ≠ [nsup0 0 ++ sealAEAD key0 (nsup0 0) (List.range 16)] := by
  refine ⟨by decide, by decide, by decide, by decide, by decide⟩

/-- Claim C6 (refuted, code bug): `Reader.Read` performs a single source
read; on a 43-byte stream that is a valid 44-byte frame minus its final
byte it reports `AuthenticationFailure` — a different error than the
`TruncatedFrame` the claim requires — and on a source that delivers fewer
than `nonceSize` bytes it panics (slice out of range) instead of returning
any error. -/
theorem C6_truncated_frame_not_reported :
    ReadGo key0 []
      (fun _ => .bytes ((nonce0 ++ sealAEAD key0 nonce0
        ((List.range 16).map (fun x => x + 1))).take 43)) 28
      = some (.error .AuthenticationFailure) ∧
    ReadGo key0 [] (fun _ => .bytes (List.replicate 5 0)) 28 = none ∧
    CryptError.AuthenticationFailure ≠ CryptError.TruncatedFrame := by
  refine ⟨rfl, rfl, by decide⟩

/-- Claim C9 (refuted, code bug): `Decrypt` binds the factory's error and
never checks it, dereferencing the factory's result first; when the factory
rejects the key (here one of 31 bytes, which `newGCM` maps to `InvalidKey`)
the call panics (`none`) instead of surfacing the typed error.  The
ciphertext-length bound check itself is present for valid keys, as the third
conjunct shows. -/
theorem C9_decrypt_factory_error_unchecked :
    newGCM (List.replicate 31 0) = .error .InvalidKey ∧
    Decrypt [] (List.replicate 31 0) = none ∧
    Decrypt (List.replicate 5 0) key0 = some (.error .MalformedInput) :=
  ⟨rfl, rfl, rfl⟩

/-- Claim C10: `Reader.Read` depends on the underlying source only through
the single call that requests `len(p) + tagSize` bytes (the destination
length plus `gcm.Overhead() = 16`), and the `buf` field the Reader was
constructed with has no effect on the result: two Readers whose sources
agree on that one request, whatever their `buf` fields, produce identical
results. -/
theorem C10_read_single_source_call (key r1 r2 : List Nat)
    (s1 s2 : Nat → ReadResult) (plen : Nat)
    (h1 : nonceSize ≤ plen)
    (h2 : s1 (plen + tagSize) = s2 (plen + tagSize)) :
    ReadGo key r1 s1 plen = ReadGo key r2 s2 plen := by
  unfold ReadGo
  rw [h2]

/-- Witness for C10 at concrete Readers and sources. -/
theorem C10_read_single_source_call_witness :
    ReadGo [] [] (fun _ => .bytes []) 12 = ReadGo [] [0] (fun _ => .bytes []) 12 :=
  C10_read_single_source_call [] [] [0] (fun _ => .bytes [])
    (fun _ => .bytes []) 12 (by decide) rfl
